import Mathlib

/-!
Verification development for the synthetic-dataset generator
(`image_composition.py` and `coco_json_utils.py`).

The Python sources are shallowly embedded below.  Pure computations are
translated directly; the two pieces of per-image mutable state
(`AnnotationJsonUtils.annotation_id_index` and the growing output lists)
become explicit state threaded through folds.  Calls into external
libraries (PIL, numpy, skimage, shapely) are modelled by executable Lean
functions that follow those libraries' documented per-pixel / geometric
semantics; each such model carries a doc comment saying what it stands for.
-/

namespace SynthData

/-- An RGB color value, as produced by `PIL.Image.getpixel` on an `RGB`
image: a triple of channel values. -/
abbrev Color := ℕ × ℕ × ℕ

/-- A 2-D point with rational coordinates, standing for the floating-point
`(x, y)` vertices handled by shapely in `coco_json_utils.py`. -/
abbrev Point := ℚ × ℚ

/-! ## Per-pixel compositing model of `ImageComposition._compose_images`
(`image_composition.py`, lines 399-425).

`PIL.Image.composite(im1, im2, mask)` with an 8-bit `L` mask blends the two
images per pixel and channel as `im2 + (im1 - im2) * mask / 255`.  We model
one channel of that blend; at mask values `0` and `255` the result is
exactly the background resp. foreground channel, independent of rounding. -/

/-- Model of one channel of `PIL.Image.composite(fg, bg, mask)`:
`(fg * m + bg * (255 - m)) / 255` in natural-number arithmetic. -/
def compositeChannel (fg bg m : ℕ) : ℕ :=
  (fg * m + bg * (255 - m)) / 255

/-- Channelwise `PIL.Image.composite` on RGB triples with a single mask
value `m`. -/
def compositeRGB (fg bg : Color) (m : ℕ) : Color :=
  (compositeChannel fg.1 bg.1 m,
   compositeChannel fg.2.1 bg.2.1 m,
   compositeChannel fg.2.2 bg.2.2 m)

/-- The data one foreground layer contributes at a fixed pixel of the
output canvas, after the paste step of `_compose_images`:
`color` is the pixel of `new_fg_image` (the foreground pasted onto a
transparent canvas), `alpha` is the pixel of `new_alpha_mask` (the pasted
opacity channel), and `key` is `fg['mask_rgb_color']`. -/
structure LayerPx where
  color : Color
  alpha : ℕ
  key : Color
deriving DecidableEq

/-- One iteration of the `for fg in foregrounds` loop of
`_compose_images`, restricted to a single pixel.  The running state is the
pair (composite pixel, composite-mask pixel).  Following lines 399-425:
the composite is blended with the layer's alpha
(`Image.composite(new_fg_image, composite, new_alpha_mask)`); the mask is
updated through the hard threshold 200 (`np.greater(new_alpha_mask, 200)`,
`uint8_mask * color` channels, `isolated_alpha = uint8_mask * 255`,
`Image.composite(isolated_mask, composite_mask, isolated_alpha)`). -/
def composeStep (st : Color × Color) (L : LayerPx) : Color × Color :=
  let comp := compositeRGB L.color st.1 L.alpha
  let uint8m : ℕ := if 200 < L.alpha then 1 else 0
  let isolated : Color := (uint8m * L.key.1, uint8m * L.key.2.1, uint8m * L.key.2.2)
  let isolatedAlpha : ℕ := uint8m * 255
  let mask := compositeRGB isolated st.2 isolatedAlpha
  (comp, mask)

/-- The value of (composite pixel, instance-mask pixel) after all layers of
`_compose_images` have been applied at one pixel: the composite starts
from the cropped background pixel `bg`, the mask starts from black
(`Image.new('RGB', composite.size, 0)`). -/
def composePixel (bg : Color) (layers : List LayerPx) : Color × Color :=
  layers.foldl composeStep (bg, (0, 0, 0))

/-! ## Model of `ImageComposition._transform_foreground`
(`image_composition.py`, lines 429-454). -/

/-- An RGBA pixel; PIL stores each channel as an 8-bit value. -/
structure Pixel where
  r : Fin 256
  g : Fin 256
  b : Fin 256
  a : Fin 256
deriving DecidableEq

/-- A foreground image, seen as its collection of RGBA pixels (the spatial
layout plays no role in the verified properties). -/
abbrev Img := List Pixel

/-- The error raised when the foreground cutout has no fully transparent
pixel.  The source raises `AssertionError('foreground needs to have
transparent background')`; the spec names this condition
`MalformedForegroundError`. -/
inductive FgError where
  | malformedForeground
deriving DecidableEq

/-- Round a rational to the nearest integer and clamp into `0..255`,
modelling how PIL stores the result of floating-point channel arithmetic
in an 8-bit channel. -/
def clamp255 (q : ℚ) : Fin 256 :=
  ⟨min 255 (Int.toNat ⌊q + 1/2⌋), Nat.lt_succ_of_le (Nat.min_le_left _ _)⟩

/-- One channel of `PIL.Image.blend(im1, im2, factor)`:
`im1 + factor * (im2 - im1)`, rounded and clamped to the 8-bit range. -/
def blendChannel (c1 c2 : Fin 256) (f : ℚ) : Fin 256 :=
  clamp255 (((c1 : ℕ) : ℚ) + f * (((c2 : ℕ) : ℚ) - ((c1 : ℕ) : ℚ)))

/-- Model of `ImageEnhance.Brightness(image).enhance(factor)` from PIL:
the enhancer blends the image with a degenerate black image
(`Image.new(mode, size, 0)`) whose alpha channel has been replaced by the
image's own alpha (`degenerate.putalpha(image.getalpha())`), so each color
channel is blended with 0 and the alpha channel is blended with itself. -/
def enhanceBrightness (f : ℚ) (img : Img) : Img :=
  img.map (fun p =>
    { r := blendChannel 0 p.r f
      g := blendChannel 0 p.g f
      b := blendChannel 0 p.b f
      a := blendChannel p.a p.a f })

/-- Embedding of `ImageComposition._transform_foreground`.  The random
draws (`angle_degrees`, `scale`, `brightness_factor`) are explicit
arguments; the PIL `rotate` and `resize` calls, whose bicubic resampling
is internal to PIL, are abstract image transformations passed as
arguments.  The guard is `assert np.any(fg_alpha == 0)` on the alpha
channel extracted by `getchannel(3)`. -/
def transform_foreground (rotateFn resizeFn : Img → Img) (brightnessFactor : ℚ)
    (img : Img) : Except FgError Img :=
  if img.any (fun p => p.a == 0) then
    .ok (enhanceBrightness brightnessFactor (resizeFn (rotateFn img)))
  else
    .error .malformedForeground

/-! ## Model of the `category_ids` key check of
`AnnotationJsonUtils.create_coco_annotations`
(`coco_json_utils.py`, lines 93-97). -/

/-- A Python value as far as the key-type check can see it: a string or a
value of some other type (the check only calls `type(key) is str`). -/
inductive PyVal where
  | pstr (s : String)
  | pint (n : ℤ)
deriving DecidableEq

/-- Python's `type(key) is str` test. -/
def isPyStr : PyVal → Bool
  | .pstr _ => true
  | _ => false

/-- The error type for the `raise TypeError(...)` at line 96. -/
inductive PyError where
  | typeError
deriving DecidableEq

/-- Embedding of the loop at lines 94-97 of `coco_json_utils.py`:
`for key in self.category_ids.keys(): if type(key) is not str: raise
TypeError(...); break`.  The unconditional `break` means at most the first
iterated key is ever inspected, so the loop reduces to a match on the head
of the key list (in dictionary iteration order). -/
def checkCategoryIdKeys (keys : List PyVal) : Except PyError Unit :=
  match keys with
  | [] => .ok ()
  | k :: _ => if isPyStr k then .ok () else .error .typeError

/-! ## Geometry model (shapely semantics used by `_create_annotations`).

Shapely is an external library; the functions below give executable models
of the exact operations the source invokes on polygon rings:
`Polygon.area` (shoelace), `MultiPolygon.bounds` (min/max over vertices),
`MultiPolygon.area` (sum of part areas), `convex_hull` (monotone chain),
and `simplify(1.0, preserve_topology=False)` (Douglas-Peucker with
tolerance 1, as named in the spec). -/

/-- Shoelace signed-area sum of a vertex ring (cyclically pairing each
vertex with its successor; a repeated closing vertex contributes zero). -/
def shoelace (r : List Point) : ℚ :=
  (r.zip (r.rotate 1)).foldl (fun s pq => s + (pq.1.1 * pq.2.2 - pq.2.1 * pq.1.2)) 0

/-- Model of `shapely Polygon.area` on a simple ring: half the absolute
shoelace sum. -/
def ringArea (r : List Point) : ℚ := |shoelace r| / 2

/-- The geometry values `_create_annotations` distinguishes through
`geom_type`: a single polygon ring, a multipolygon, or a degenerate
line/point result. -/
inductive Geom where
  | poly (ring : List Point)
  | multi (rings : List (List Point))
  | degenerate
deriving DecidableEq

/-- Model of shapely's `.area` on a geometry: a polygon's ring area, the
sum of part areas for a multipolygon, zero for degenerate geometry. -/
def geomArea : Geom → ℚ
  | .poly r => ringArea r
  | .multi rs => (rs.map ringArea).sum
  | .degenerate => 0

/-- Squared euclidean distance between two points. -/
def dist2 (p q : Point) : ℚ := (p.1 - q.1) ^ 2 + (p.2 - q.2) ^ 2

/-- Squared cross product of `p` against the chord `a`-`b`; the squared
perpendicular distance from `p` to the chord's line is this divided by
`dist2 a b`. -/
def crossSq (a b p : Point) : ℚ :=
  ((b.1 - a.1) * (p.2 - a.2) - (b.2 - a.2) * (p.1 - a.1)) ^ 2

/-- Fold selecting the indexed point with the largest measure (index 0 and
measure 0 when the list is empty; measures are nonnegative). -/
def farthestFrom (meas : Point → ℚ) (pts : List (ℕ × Point)) : ℕ × ℚ :=
  pts.foldl (fun best ip => if best.2 < meas ip.2 then (ip.1, meas ip.2) else best) (0, 0)

/-- Douglas-Peucker polyline simplification with tolerance 1, on fuel (the
initial fuel is the list length, which bounds the recursion depth).  The
endpoints are kept; if every interior point lies within distance 1 of the
chord only the endpoints remain, otherwise the polyline splits at the
farthest interior point.  Distance comparisons are cross-multiplied to
stay in exact rational arithmetic: for a nondegenerate chord,
`dist > 1  ↔  crossSq > dist2 a b`. -/
def dpFuel : ℕ → List Point → List Point
  | 0, pts => pts
  | n + 1, pts =>
    if pts.length ≤ 2 then pts
    else
      let a := pts.headI
      let b := pts.getLastD (0, 0)
      let len2 := dist2 a b
      let meas : Point → ℚ := fun p => if len2 = 0 then dist2 p a else crossSq a b p
      let thresh : ℚ := if len2 = 0 then 1 else len2
      let best := farthestFrom meas (pts.enum.drop 1).dropLast
      if thresh < best.2 then
        dpFuel n (pts.take (best.1 + 1)) ++ (dpFuel n (pts.drop best.1)).tail
      else [a, b]

/-- Douglas-Peucker simplification of a (closed) ring with tolerance 1. -/
def douglasPeucker (r : List Point) : List Point := dpFuel r.length r

/-- Model of `Polygon(ring).simplify(1.0, preserve_topology=False)`: GEOS
applies Douglas-Peucker to the exterior ring and rebuilds the geometry;
the result is modelled as the polygon on the simplified ring. -/
def simplify1 (r : List Point) : Geom := Geom.poly (douglasPeucker r)

/-- Cross product of `o`→`a` and `o`→`b`, used for hull turns. -/
def crossO (o a b : Point) : ℚ :=
  (a.1 - o.1) * (b.2 - o.2) - (a.2 - o.2) * (b.1 - o.1)

/-- Add a point to a (reversed) hull chain, popping points that make a
non-left turn. -/
def hullAdd : List Point → Point → List Point
  | b :: a :: rest, p =>
    if crossO a b p ≤ 0 then hullAdd (a :: rest) p else p :: b :: a :: rest
  | acc, p => p :: acc

/-- One half (lower or upper) of a monotone-chain hull. -/
def halfHull (pts : List Point) : List Point := (pts.foldl hullAdd []).reverse

/-- Lexicographic order on points, as a Bool. -/
def ptLE (p q : Point) : Bool :=
  decide (p.1 < q.1) || (decide (p.1 = q.1) && decide (p.2 ≤ q.2))

/-- Insertion into a lexicographically sorted point list. -/
def insertSorted (p : Point) : List Point → List Point
  | [] => [p]
  | q :: rest => if ptLE p q then p :: q :: rest else q :: insertSorted p rest

/-- Insertion sort of points in lexicographic order. -/
def sortPts (pts : List Point) : List Point := pts.foldr insertSorted []

/-- Model of shapely's `convex_hull` (the smallest convex polygon
containing all the points): Andrew's monotone chain, returning the hull as
a closed ring. -/
def convexHull (pts : List Point) : List Point :=
  let s := (sortPts pts).dedup
  match s with
  | [] => []
  | [p] => [p]
  | _ =>
    let lower := halfHull s
    let upper := halfHull s.reverse
    (lower.dropLast ++ upper.dropLast) ++ [s.headI]

/-- All vertices of a geometry (`shapely` exposes them for the hull
substitution `poly.convex_hull`). -/
def geomPoints : Geom → List Point
  | .poly r => r
  | .multi rs => rs.flatten
  | .degenerate => []

/-! ## Embedding of `AnnotationJsonUtils._create_annotations`
(`coco_json_utils.py`, lines 133-196).

The contours traced by `skimage.measure.find_contours` on each isolated
mask are an external library output and enter the embedding as input: each
isolated mask comes paired with its traced contour list, each contour a
list of `(row, col)` vertices. -/

/-- Per-contour processing of the inner loop (lines 155-174): swap each
vertex from the traced `(col, row)` order to `(x, y)` and subtract the
1-pixel padding, build a polygon and simplify it with tolerance 1.0, keep
it only if its area exceeds 16, substituting the convex hull of all its
points when the simplified geometry is a multipolygon and dropping
anything that is not a true polygon afterwards.  Returns the accepted ring
(`poly.exterior.coords`), or none when the contour contributes nothing. -/
def processContour (contour : List Point) : Option (List Point) :=
  let ring := contour.map (fun p => (p.2 - 1, p.1 - 1))
  let poly := simplify1 ring
  if 16 < geomArea poly then
    let poly2 := match poly with
      | .multi rs => Geom.poly (convexHull rs.flatten)
      | g => g
    match poly2 with
    | .poly r => some r
    | _ => none
  else none

/-- The accepted polygons of one mask: the contours that survive
`processContour`, in order (the `polygons` list at line 176). -/
def acceptedPolys (contours : List (List Point)) : List (List Point) :=
  contours.filterMap processContour

/-- The flattened coordinate list
`np.array(poly.exterior.coords).ravel().tolist()` of one accepted ring. -/
def flattenRing (r : List Point) : List ℚ := r.flatMap (fun p => [p.1, p.2])

/-- Model of `MultiPolygon(polygons).bounds`: `(minx, miny, maxx, maxy)`
over all vertices, computed by folds started at the first vertex.  The
code reaches it only with a nonempty polygon list; the empty case returns
a junk value. -/
def boundsOf : List Point → ℚ × ℚ × ℚ × ℚ
  | [] => (0, 0, 0, 0)
  | p :: ps =>
    (ps.foldl (fun m q => min m q.1) p.1,
     ps.foldl (fun m q => min m q.2) p.2,
     ps.foldl (fun m q => max m q.1) p.1,
     ps.foldl (fun m q => max m q.2) p.2)

/-- A COCO annotation record as assembled by `_create_annotations`
(the dictionary built at lines 139-186). -/
structure AnnRecord where
  segmentation : List (List ℚ)
  iscrowd : ℕ
  image_id : ℕ
  category_id : ℕ
  id : ℕ
  bbox : ℚ × ℚ × ℚ × ℚ
  area : ℚ
deriving DecidableEq

/-- Association-list lookup with color keys, modelling Python
`dict.get`. -/
def alookup {β : Type} : List (Color × β) → Color → Option β
  | [], _ => none
  | e :: rest, c => if e.1 = c then some e.2 else alookup rest c

/-- The record the loop body emits for a mask with category id `cid`,
assigned id `annId` and traced contours `contours`, when at least one
polygon is accepted: segmentation is the accepted rings flattened, bbox is
`(x, y, max_x - x, max_y - y)` from `MultiPolygon(polygons).bounds`, area
is `MultiPolygon(polygons).area` (lines 180-186). -/
def mkAnnRecord (imageId cid annId : ℕ) (contours : List (List Point)) : AnnRecord :=
  let polys := acceptedPolys contours
  let b := boundsOf polys.flatten
  { segmentation := polys.map flattenRing
    iscrowd := 0
    image_id := imageId
    category_id := cid
    id := annId
    bbox := (b.1, b.2.1, b.2.2.1 - b.1, b.2.2.2 - b.2.1)
    area := (polys.map ringArea).sum }

/-- The mutable state of `_create_annotations` made explicit: the output
list `self.annotations`, the counter `self.annotation_id_index`, and the
diagnostics printed at line 144 (recorded as the offending color keys). -/
structure AnnState where
  anns : List AnnRecord
  nextId : ℕ
  diags : List Color
deriving DecidableEq

/-- One iteration of the `for key, mask in self.isolated_masks.items()`
loop (lines 138-189).  `if not self.category_ids.get(key)` skips the mask
(with a diagnostic) when the key is absent or maps to a falsy id (0 in
Python truthiness); otherwise `_next_annotation_id` draws an id from the
counter before the contours are processed, and the record is appended only
if at least one polygon was accepted (lines 176-178 skip the mask after
the id was already consumed). -/
def create_annotations_step (imageId : ℕ) (categoryIds : List (Color × ℕ))
    (st : AnnState) (m : Color × List (List Point)) : AnnState :=
  match alookup categoryIds m.1 with
  | none => { st with diags := st.diags ++ [m.1] }
  | some cid =>
    if cid = 0 then { st with diags := st.diags ++ [m.1] }
    else
      let annId := st.nextId
      if acceptedPolys m.2 = [] then { st with nextId := annId + 1 }
      else
        { st with nextId := annId + 1,
                  anns := st.anns ++ [mkAnnRecord imageId cid annId m.2] }

/-- Embedding of `AnnotationJsonUtils._create_annotations`: fold the loop
body over the isolated masks (in dictionary insertion order), starting
from an empty output list and the current value `startId` of the
process-wide counter `annotation_id_index`. -/
def create_annotations (imageId : ℕ) (categoryIds : List (Color × ℕ))
    (startId : ℕ) (masks : List (Color × List (List Point))) : AnnState :=
  masks.foldl (create_annotations_step imageId categoryIds) ⟨[], startId, []⟩

/-- The id-independent fields of a record, used to state that re-running
extraction changes nothing but the assigned ids. -/
def stripId (a : AnnRecord) : (List (List ℚ)) × (ℚ × ℚ × ℚ × ℚ) × ℚ × ℕ × ℕ × ℕ :=
  (a.segmentation, a.bbox, a.area, a.category_id, a.image_id, a.iscrowd)

/-- Concrete category registry for the id-gap counterexample: three colors
with category ids 1, 2, 3. -/
def gapCats : List (Color × ℕ) :=
  [((255, 0, 0), 1), ((0, 255, 0), 2), ((0, 0, 255), 3)]

/-- Concrete isolated-mask input for the id-gap counterexample: the first
and third masks trace a 20 by 20 square (area 400 survives the filter),
the middle mask traces a unit square (area 1, filtered out, so its
assigned id is consumed without an emitted record). -/
def gapMasks : List (Color × List (List Point)) :=
  [((255, 0, 0), [[(1, 1), (1, 21), (21, 21), (21, 1), (1, 1)]]),
   ((0, 255, 0), [[(1, 1), (1, 2), (2, 2), (2, 1), (1, 1)]]),
   ((0, 0, 255), [[(1, 1), (1, 21), (21, 21), (21, 1), (1, 1)]])]

/-- Concrete single-mask input used by witnesses: one red mask tracing a
20 by 20 square. -/
def oneMask : List (Color × List (List Point)) :=
  [((255, 0, 0), [[(1, 1), (1, 21), (21, 21), (21, 1), (1, 1)]])]

/-- Concrete single-entry registry used by witnesses. -/
def oneCat : List (Color × ℕ) := [((255, 0, 0), 1)]

/-! ## Embedding of `AnnotationJsonUtils._isolate_masks`
(`coco_json_utils.py`, lines 112-131). -/

/-- An isolated binary mask: the canvas created by
`Image.new('1', (self.width + 2, self.height + 2))` (1-bit pixels, default
black), recorded as its dimensions plus the set of pixels that were set to
1 by `putpixel`. -/
structure IsoMask where
  width : ℕ
  height : ℕ
  pix : Finset (ℕ × ℕ)
deriving DecidableEq

/-- The pixel traversal of `_isolate_masks`: `for x in range(self.width):
for y in range(self.height)`. -/
def pixelList (w h : ℕ) : List (ℕ × ℕ) :=
  (List.range w).flatMap (fun x => (List.range h).map (fun y => (x, y)))

/-- One iteration of the pixel loop of `_isolate_masks`: a black pixel is
ignored; otherwise an empty padded canvas is first created for the
pixel's color if none exists yet (keys are the pixel colors; `str` of an
RGB triple is injective, so the string keys of the Python dict are
modelled by the colors themselves), and then `putpixel((x+1, y+1), 1)`
sets the padded pixel on that color's canvas. -/
def isoStep (img : ℕ → ℕ → Color) (w h : ℕ)
    (st : List (Color × IsoMask)) (p : ℕ × ℕ) : List (Color × IsoMask) :=
  let c := img p.1 p.2
  if c = (0, 0, 0) then st
  else
    let st' := if (alookup st c).isSome then st
               else st ++ [(c, ⟨w + 2, h + 2, ∅⟩)]
    st'.map (fun e =>
      if e.1 = c then (e.1, ⟨e.2.width, e.2.height, insert (p.1 + 1, p.2 + 1) e.2.pix⟩)
      else e)

/-- Embedding of `_isolate_masks`: fold the pixel loop over all pixels of
the `w × h` mask image, building the dictionary of per-color isolated
masks (in insertion order). -/
def isolate_masks (img : ℕ → ℕ → Color) (w h : ℕ) : List (Color × IsoMask) :=
  (pixelList w h).foldl (isoStep img w h) []

/-- Concrete mask image for the C5 witness: a single red pixel at the
origin of a 2 by 2 image. -/
def wImg : ℕ → ℕ → Color :=
  fun x y => if x = 0 ∧ y = 0 then (255, 0, 0) else (0, 0, 0)

end SynthData

namespace SynthData

/-! ## Theorems -/

/-- Blending a channel with itself is the identity:
`clamp255 (a + f * (a - a)) = a`. -/
theorem blendChannel_self (a : Fin 256) (f : ℚ) : blendChannel a a f = a := by
  unfold blendChannel clamp255
  have h1 : ((a : ℕ) : ℚ) + f * (((a : ℕ) : ℚ) - ((a : ℕ) : ℚ)) = ((a : ℕ) : ℚ) := by ring
  rw [h1]
  have h2 : ⌊((a : ℕ) : ℚ) + 1/2⌋ = ((a : ℕ) : ℤ) := by
    rw [Int.floor_eq_iff]
    constructor
    · push_cast; linarith
    · push_cast; linarith
  apply Fin.ext
  show min 255 (Int.toNat ⌊((a : ℕ) : ℚ) + 1/2⌋) = (a : ℕ)
  rw [h2, Int.toNat_natCast]
  exact Nat.min_eq_right (Nat.lt_succ_iff.mp a.isLt)

/-- C9: in the foreground transform, the brightness step (multiplication
of per-pixel brightness by a factor in [0.7, 1.1]) leaves the opacity
channel untouched: the alpha channel after `enhanceBrightness` equals the
alpha channel before it, pixel by pixel. -/
theorem brightness_preserves_alpha (f : ℚ) (img : Img)
    (hlo : (7 : ℚ)/10 ≤ f) (hhi : f ≤ (11 : ℚ)/10) :
    (enhanceBrightness f img).map (fun p => p.a) = img.map (fun p => p.a) := by
  unfold enhanceBrightness
  rw [List.map_map]
  apply List.map_congr_left
  intro p _
  simp only [Function.comp_apply]
  exact blendChannel_self p.a f

/-- Witness for C9 at a concrete factor and image. -/
theorem brightness_preserves_alpha_witness :
    (enhanceBrightness 1 [⟨10, 20, 30, 40⟩]).map (fun p => p.a) =
      ([⟨10, 20, 30, 40⟩] : Img).map (fun p => p.a) :=
  brightness_preserves_alpha 1 [⟨10, 20, 30, 40⟩] (by norm_num) (by norm_num)

/-- Compositing a channel with a fully opaque mask value yields exactly the
foreground channel. -/
theorem compositeChannel_full (fg bg : ℕ) : compositeChannel fg bg 255 = fg := by
  unfold compositeChannel
  rw [Nat.sub_self, Nat.mul_zero, Nat.add_zero, Nat.mul_div_cancel fg (by norm_num)]

/-- Channelwise version of `compositeChannel_full`. -/
theorem compositeRGB_full (fg bg : Color) : compositeRGB fg bg 255 = fg := by
  obtain ⟨f1, f2, f3⟩ := fg
  simp [compositeRGB, compositeChannel_full]

/-- C2: for two layers A (placed first) and B (placed second), at any pixel
where B's pasted opacity is fully opaque (255, hence above the threshold
200), the composed pixel is B's pasted color and the instance-mask pixel is
B's color key — the mask color matches the visually topmost layer. -/
theorem compose_occlusion (bg : Color) (A B : LayerPx) (h : B.alpha = 255) :
    composePixel bg [A, B] = (B.color, B.key) := by
  unfold composePixel
  simp only [List.foldl_cons, List.foldl_nil]
  unfold composeStep
  rw [h]
  norm_num [compositeRGB_full]

/-- Witness for C2 at concrete layers: a red layer of alpha 120 followed by
a fully opaque green-keyed layer. -/
theorem compose_occlusion_witness :
    composePixel (1, 2, 3)
      [⟨(9, 9, 9), 120, (255, 0, 0)⟩, ⟨(5, 6, 7), 255, (0, 255, 0)⟩] =
      ((5, 6, 7), (0, 255, 0)) :=
  compose_occlusion (1, 2, 3) ⟨(9, 9, 9), 120, (255, 0, 0)⟩
    ⟨(5, 6, 7), 255, (0, 255, 0)⟩ rfl

/-- C7: the foreground transform fails with the malformed-foreground error
exactly when the opacity channel has no fully transparent pixel: if no
pixel has alpha 0 it returns that error, and if some pixel has alpha 0 it
returns a transformed image (raising no such error). -/
theorem transform_foreground_alpha_guard (rotateFn resizeFn : Img → Img)
    (f : ℚ) (img : Img) :
    ((¬ ∃ p ∈ img, p.a = 0) →
      transform_foreground rotateFn resizeFn f img = .error .malformedForeground) ∧
    ((∃ p ∈ img, p.a = 0) →
      ∃ out, transform_foreground rotateFn resizeFn f img = .ok out) := by
  constructor
  · intro h
    unfold transform_foreground
    rw [if_neg]
    simp only [List.any_eq_true, beq_iff_eq]
    exact fun ⟨p, hp, hz⟩ => h ⟨p, hp, hz⟩
  · intro ⟨p, hp, hz⟩
    have hc : img.any (fun p => p.a == 0) = true := by
      simp only [List.any_eq_true, beq_iff_eq]
      exact ⟨p, hp, hz⟩
    exact ⟨_, by unfold transform_foreground; rw [if_pos hc]⟩

/-- Witness for C7: a one-pixel image with a fully transparent pixel is
accepted, and a one-pixel fully opaque image is rejected. -/
theorem transform_foreground_alpha_guard_witness :
    (∃ out, transform_foreground id id 1 [⟨1, 2, 3, 0⟩] = .ok out) ∧
      transform_foreground id id 1 [⟨1, 2, 3, 255⟩] =
        .error .malformedForeground :=
  ⟨(transform_foreground_alpha_guard id id 1 [⟨1, 2, 3, 0⟩]).2
      ⟨⟨1, 2, 3, 0⟩, by simp, rfl⟩,
   (transform_foreground_alpha_guard id id 1 [⟨1, 2, 3, 255⟩]).1 (by decide)⟩

/-- C10: the key-type validation of `create_coco_annotations` inspects at
most the first iterated key of `category_ids`: it raises `TypeError` iff
that first key is not a string, and a key list whose head is a string
passes the check no matter what the remaining keys are. -/
theorem checkCategoryIdKeys_first_key_only (keys : List PyVal) :
    (checkCategoryIdKeys keys = .error .typeError ↔
      ∃ k rest, keys = k :: rest ∧ isPyStr k = false) ∧
    (∀ k rest, keys = k :: rest → isPyStr k = true →
      checkCategoryIdKeys keys = .ok ()) := by
  constructor
  · constructor
    · intro h
      match keys with
      | [] => simp [checkCategoryIdKeys] at h
      | k :: rest =>
        refine ⟨k, rest, rfl, ?_⟩
        by_contra hk
        simp only [Bool.not_eq_false] at hk
        simp [checkCategoryIdKeys, hk] at h
    · rintro ⟨k, rest, rfl, hk⟩
      simp [checkCategoryIdKeys, hk]
  · rintro k rest rfl hk
    simp [checkCategoryIdKeys, hk]

/-- Witness for C10: a key list whose first key is a string but whose
second key is an integer is accepted, applying the theorem at that list. -/
theorem checkCategoryIdKeys_first_key_only_witness :
    checkCategoryIdKeys [PyVal.pstr "(255, 0, 0)", PyVal.pint 3] = .ok () :=
  (checkCategoryIdKeys_first_key_only [PyVal.pstr "(255, 0, 0)", PyVal.pint 3]).2
    (PyVal.pstr "(255, 0, 0)") [PyVal.pint 3] rfl rfl

/-! ### Fold lemmas for `boundsOf` -/

/-- A min-fold is bounded by its initial value. -/
theorem foldl_min_le_init {α : Type} [LinearOrder α] (l : List α) (d : α) :
    l.foldl min d ≤ d := by
  induction l generalizing d with
  | nil => exact le_refl d
  | cons x l ih => exact le_trans (ih (min d x)) (min_le_left d x)

/-- A min-fold is bounded by every list element. -/
theorem foldl_min_le_mem {α : Type} [LinearOrder α] (l : List α) (d : α) :
    ∀ x ∈ l, l.foldl min d ≤ x := by
  induction l generalizing d with
  | nil => intro x hx; cases hx
  | cons y l ih =>
    intro x hx
    rcases List.mem_cons.mp hx with h | h
    · subst h
      exact le_trans (foldl_min_le_init l (min d x)) (min_le_right d x)
    · exact ih (min d y) x h

/-- A min-fold returns its initial value or a list element. -/
theorem foldl_min_attained {α : Type} [LinearOrder α] (l : List α) (d : α) :
    l.foldl min d = d ∨ l.foldl min d ∈ l := by
  induction l generalizing d with
  | nil => exact Or.inl rfl
  | cons x l ih =>
    rcases ih (min d x) with h | h
    · rcases min_choice d x with hm | hm
      · exact Or.inl (by rw [List.foldl_cons, h, hm])
      · refine Or.inr ?_
        rw [List.foldl_cons, h, hm]
        exact List.mem_cons_self x l
    · exact Or.inr (List.mem_cons_of_mem x h)

/-- A max-fold is bounded below by its initial value. -/
theorem le_foldl_max_init {α : Type} [LinearOrder α] (l : List α) (d : α) :
    d ≤ l.foldl max d := by
  induction l generalizing d with
  | nil => exact le_refl d
  | cons x l ih => exact le_trans (le_max_left d x) (ih (max d x))

/-- A max-fold dominates every list element. -/
theorem le_foldl_max_mem {α : Type} [LinearOrder α] (l : List α) (d : α) :
    ∀ x ∈ l, x ≤ l.foldl max d := by
  induction l generalizing d with
  | nil => intro x hx; cases hx
  | cons y l ih =>
    intro x hx
    rcases List.mem_cons.mp hx with h | h
    · subst h
      exact le_trans (le_max_right d x) (le_foldl_max_init l (max d x))
    · exact ih (max d y) x h

/-- A max-fold returns its initial value or a list element. -/
theorem foldl_max_attained {α : Type} [LinearOrder α] (l : List α) (d : α) :
    l.foldl max d = d ∨ l.foldl max d ∈ l := by
  induction l generalizing d with
  | nil => exact Or.inl rfl
  | cons x l ih =>
    rcases ih (max d x) with h | h
    · rcases max_choice d x with hm | hm
      · exact Or.inl (by rw [List.foldl_cons, h, hm])
      · refine Or.inr ?_
        rw [List.foldl_cons, h, hm]
        exact List.mem_cons_self x l
    · exact Or.inr (List.mem_cons_of_mem x h)

/-- The x-min fold of `boundsOf` as a fold over mapped coordinates. -/
theorem boundsOf_fold_eq (v : Point) (vs : List Point) :
    boundsOf (v :: vs) =
      ((vs.map Prod.fst).foldl min v.1, (vs.map Prod.snd).foldl min v.2,
       (vs.map Prod.fst).foldl max v.1, (vs.map Prod.snd).foldl max v.2) := by
  unfold boundsOf
  rw [List.foldl_map, List.foldl_map, List.foldl_map, List.foldl_map]

/-- Full characterization of `boundsOf` on a nonempty vertex list: it is a
bounding rectangle (every vertex lies inside) and it is tight (each of the
four extremes is attained by a vertex). -/
theorem boundsOf_spec (v : Point) (vs : List Point) :
    (∀ p ∈ v :: vs,
      (boundsOf (v :: vs)).1 ≤ p.1 ∧ (boundsOf (v :: vs)).2.1 ≤ p.2 ∧
      p.1 ≤ (boundsOf (v :: vs)).2.2.1 ∧ p.2 ≤ (boundsOf (v :: vs)).2.2.2) ∧
    (∃ p ∈ v :: vs, p.1 = (boundsOf (v :: vs)).1) ∧
    (∃ p ∈ v :: vs, p.2 = (boundsOf (v :: vs)).2.1) ∧
    (∃ p ∈ v :: vs, p.1 = (boundsOf (v :: vs)).2.2.1) ∧
    (∃ p ∈ v :: vs, p.2 = (boundsOf (v :: vs)).2.2.2) := by
  rw [boundsOf_fold_eq]
  refine ⟨?_, ?_, ?_, ?_, ?_⟩
  · intro p hp
    rcases List.mem_cons.mp hp with h | h
    · subst h
      exact ⟨foldl_min_le_init _ _, foldl_min_le_init _ _,
             le_foldl_max_init _ _, le_foldl_max_init _ _⟩
    · exact ⟨foldl_min_le_mem _ _ p.1 (List.mem_map_of_mem Prod.fst h),
             foldl_min_le_mem _ _ p.2 (List.mem_map_of_mem Prod.snd h),
             le_foldl_max_mem _ _ p.1 (List.mem_map_of_mem Prod.fst h),
             le_foldl_max_mem _ _ p.2 (List.mem_map_of_mem Prod.snd h)⟩
  · rcases foldl_min_attained (vs.map Prod.fst) v.1 with h | h
    · exact ⟨v, List.mem_cons_self v vs, h.symm⟩
    · obtain ⟨q, hq, hq1⟩ := List.mem_map.mp h
      exact ⟨q, List.mem_cons_of_mem v hq, hq1⟩
  · rcases foldl_min_attained (vs.map Prod.snd) v.2 with h | h
    · exact ⟨v, List.mem_cons_self v vs, h.symm⟩
    · obtain ⟨q, hq, hq1⟩ := List.mem_map.mp h
      exact ⟨q, List.mem_cons_of_mem v hq, hq1⟩
  · rcases foldl_max_attained (vs.map Prod.fst) v.1 with h | h
    · exact ⟨v, List.mem_cons_self v vs, h.symm⟩
    · obtain ⟨q, hq, hq1⟩ := List.mem_map.mp h
      exact ⟨q, List.mem_cons_of_mem v hq, hq1⟩
  · rcases foldl_max_attained (vs.map Prod.snd) v.2 with h | h
    · exact ⟨v, List.mem_cons_self v vs, h.symm⟩
    · obtain ⟨q, hq, hq1⟩ := List.mem_map.mp h
      exact ⟨q, List.mem_cons_of_mem v hq, hq1⟩

/-! ### The contour filter (C4) -/

/-- Closed form of `processContour`: since the simplified geometry is a
single polygon on the Douglas-Peucker ring, the hull branch and the
`geom_type` check reduce away and the contour survives exactly the area
test. -/
theorem processContour_eq (c : List Point) :
    processContour c =
      (if 16 < geomArea (simplify1 (c.map fun p => (p.2 - 1, p.1 - 1)))
       then some (douglasPeucker (c.map fun p => (p.2 - 1, p.1 - 1)))
       else none) := rfl

/-- C4: a traced ring whose simplified polygon area is at most 16
contributes nothing — `processContour` drops it, the accepted polygon list
is unchanged by its presence, and so is the whole record (segmentation,
bbox and area); conversely any retained ring has simplified area
strictly above 16. -/
theorem contour_area_filter (c : List Point) :
    (geomArea (simplify1 (c.map fun p => (p.2 - 1, p.1 - 1))) ≤ 16 →
      processContour c = none ∧
      (∀ l1 l2, acceptedPolys (l1 ++ c :: l2) = acceptedPolys (l1 ++ l2)) ∧
      (∀ imageId cid annId l1 l2,
        mkAnnRecord imageId cid annId (l1 ++ c :: l2) =
          mkAnnRecord imageId cid annId (l1 ++ l2))) ∧
    (∀ r, processContour c = some r →
      16 < geomArea (simplify1 (c.map fun p => (p.2 - 1, p.1 - 1)))) := by
  constructor
  · intro h
    have hn : processContour c = none := by
      rw [processContour_eq, if_neg (not_lt.mpr h)]
    have hap : ∀ l1 l2, acceptedPolys (l1 ++ c :: l2) = acceptedPolys (l1 ++ l2) := by
      intro l1 l2
      unfold acceptedPolys
      rw [List.filterMap_append, List.filterMap_append, List.filterMap_cons, hn]
    refine ⟨hn, hap, ?_⟩
    intro imageId cid annId l1 l2
    unfold mkAnnRecord
    rw [hap l1 l2]
  · intro r hr
    by_contra hle
    rw [processContour_eq, if_neg hle] at hr
    exact Option.noConfusion hr

/-- Witness for C4: the unit-square contour simplifies to area at most 16
and is dropped. -/
theorem contour_area_filter_witness :
    geomArea (simplify1 (([((1 : ℚ), (1 : ℚ)), (1, 2), (2, 2), (2, 1), (1, 1)]).map
        fun p => (p.2 - 1, p.1 - 1))) ≤ 16 ∧
      processContour [((1 : ℚ), (1 : ℚ)), (1, 2), (2, 2), (2, 1), (1, 1)] = none :=
  ⟨by with_unfolding_all decide,
   ((contour_area_filter [((1 : ℚ), (1 : ℚ)), (1, 2), (2, 2), (2, 1), (1, 1)]).1
     (by with_unfolding_all decide)).1⟩

/-! ### The emitted records of `_create_annotations` (C3, C1, C6, C8) -/

/-- Field computation for `mkAnnRecord`. -/
theorem mkAnnRecord_fields (imageId cid annId : ℕ) (cs : List (List Point)) :
    (mkAnnRecord imageId cid annId cs).segmentation =
        (acceptedPolys cs).map flattenRing ∧
      (mkAnnRecord imageId cid annId cs).area =
        ((acceptedPolys cs).map ringArea).sum ∧
      (mkAnnRecord imageId cid annId cs).bbox =
        ((boundsOf (acceptedPolys cs).flatten).1,
         (boundsOf (acceptedPolys cs).flatten).2.1,
         (boundsOf (acceptedPolys cs).flatten).2.2.1 -
           (boundsOf (acceptedPolys cs).flatten).1,
         (boundsOf (acceptedPolys cs).flatten).2.2.2 -
           (boundsOf (acceptedPolys cs).flatten).2.1) ∧
      (mkAnnRecord imageId cid annId cs).id = annId ∧
      (mkAnnRecord imageId cid annId cs).category_id = cid ∧
      (mkAnnRecord imageId cid annId cs).image_id = imageId ∧
      (mkAnnRecord imageId cid annId cs).iscrowd = 0 :=
  ⟨rfl, rfl, rfl, rfl, rfl, rfl, rfl⟩

/-- Case analysis of one loop iteration: either the output list is
untouched, or exactly one record built from the current mask at the
current counter value is appended (and that mask has an accepted
polygon). -/
theorem step_anns_sub (imageId : ℕ) (cats : List (Color × ℕ)) (st : AnnState)
    (m : Color × List (List Point)) (a : AnnRecord)
    (ha : a ∈ (create_annotations_step imageId cats st m).anns) :
    a ∈ st.anns ∨
      ∃ cid, a = mkAnnRecord imageId cid st.nextId m.2 ∧ acceptedPolys m.2 ≠ [] := by
  unfold create_annotations_step at ha
  split at ha
  · exact Or.inl ha
  · rename_i cid _
    split at ha
    · exact Or.inl ha
    · split at ha
      · exact Or.inl ha
      · rename_i hne
        rcases List.mem_append.mp ha with h | h
        · exact Or.inl h
        · exact Or.inr ⟨cid, List.mem_singleton.mp h, hne⟩

/-- Fold version of `step_anns_sub`. -/
theorem fold_anns_sub (imageId : ℕ) (cats : List (Color × ℕ))
    (ms : List (Color × List (List Point))) :
    ∀ (st : AnnState) (a : AnnRecord),
      a ∈ (ms.foldl (create_annotations_step imageId cats) st).anns →
      a ∈ st.anns ∨
        ∃ m ∈ ms, ∃ cid annId,
          a = mkAnnRecord imageId cid annId m.2 ∧ acceptedPolys m.2 ≠ [] := by
  induction ms with
  | nil => intro st a ha; exact Or.inl ha
  | cons m ms ih =>
    intro st a ha
    rcases ih _ a ha with h | ⟨m', hm', rest⟩
    · rcases step_anns_sub imageId cats st m a h with h2 | ⟨cid, heq, hne⟩
      · exact Or.inl h2
      · exact Or.inr ⟨m, List.mem_cons_self m ms, cid, st.nextId, heq, hne⟩
    · exact Or.inr ⟨m', List.mem_cons_of_mem m hm', rest⟩

/-- The area of the empty ring is zero. -/
theorem ringArea_nil : ringArea [] = 0 := by
  simp [ringArea, shoelace]

/-- An accepted ring is nonempty (its area exceeds 16, and the empty ring
has area 0). -/
theorem processContour_ring_nonempty (c : List Point) (r : List Point)
    (hr : processContour c = some r) : r ≠ [] := by
  rw [processContour_eq] at hr
  split at hr
  · rename_i hlt
    have heq := Option.some.inj hr
    intro h0
    have : geomArea (simplify1 (c.map fun p => (p.2 - 1, p.1 - 1))) =
        ringArea (douglasPeucker (c.map fun p => (p.2 - 1, p.1 - 1))) := rfl
    rw [this, heq, h0, ringArea_nil] at hlt
    exact absurd hlt (by norm_num)
  · exact Option.noConfusion hr

/-- If some polygon is accepted, the concatenated vertex list is
nonempty. -/
theorem acceptedPolys_flatten_ne_nil (cs : List (List Point))
    (h : acceptedPolys cs ≠ []) : (acceptedPolys cs).flatten ≠ [] := by
  obtain ⟨r, rs, hr⟩ := List.exists_cons_of_ne_nil h
  have hmem : r ∈ acceptedPolys cs := by rw [hr]; exact List.mem_cons_self _ _
  obtain ⟨c, _, hpc⟩ := List.mem_filterMap.mp hmem
  have hrne := processContour_ring_nonempty c r hpc
  intro hf
  rw [List.flatten_eq_nil_iff] at hf
  exact hrne (hf r hmem)

/-- C3: every emitted record's bbox is the tight rectangle over the
vertices of all accepted polygons of its mask — its corner is a lower
bound attained by some vertex, corner plus extent an upper bound attained
by some vertex, in each axis — and its area is the sum of the accepted
polygons' individual areas (the accepted list already carries any
convex-hull substitution). -/
theorem ann_bbox_area (imageId : ℕ) (cats : List (Color × ℕ)) (startId : ℕ)
    (masks : List (Color × List (List Point))) (a : AnnRecord)
    (ha : a ∈ (create_annotations imageId cats startId masks).anns) :
    ∃ key contours, (key, contours) ∈ masks ∧ acceptedPolys contours ≠ [] ∧
      a.segmentation = (acceptedPolys contours).map flattenRing ∧
      a.area = ((acceptedPolys contours).map ringArea).sum ∧
      (∀ p ∈ (acceptedPolys contours).flatten,
        a.bbox.1 ≤ p.1 ∧ a.bbox.2.1 ≤ p.2 ∧
        p.1 ≤ a.bbox.1 + a.bbox.2.2.1 ∧ p.2 ≤ a.bbox.2.1 + a.bbox.2.2.2) ∧
      (∃ p ∈ (acceptedPolys contours).flatten, p.1 = a.bbox.1) ∧
      (∃ p ∈ (acceptedPolys contours).flatten, p.2 = a.bbox.2.1) ∧
      (∃ p ∈ (acceptedPolys contours).flatten, p.1 = a.bbox.1 + a.bbox.2.2.1) ∧
      (∃ p ∈ (acceptedPolys contours).flatten, p.2 = a.bbox.2.1 + a.bbox.2.2.2) := by
  unfold create_annotations at ha
  rcases fold_anns_sub imageId cats masks _ a ha with h | ⟨m, hm, cid, annId, haeq, hne⟩
  · cases h
  · subst haeq
    obtain ⟨hseg, harea, hbbox, -, -, -, -⟩ := mkAnnRecord_fields imageId cid annId m.2
    obtain ⟨v, vs, hv⟩ :=
      List.exists_cons_of_ne_nil (acceptedPolys_flatten_ne_nil m.2 hne)
    rw [hv] at hbbox
    obtain ⟨hbound, ⟨p1, hp1m, hp1⟩, ⟨p2, hp2m, hp2⟩, ⟨p3, hp3m, hp3⟩, ⟨p4, hp4m, hp4⟩⟩ :=
      boundsOf_spec v vs
    refine ⟨m.1, m.2, hm, hne, hseg, harea, ?_, ?_, ?_, ?_, ?_⟩
    · intro p hp
      rw [hv] at hp
      obtain ⟨h1, h2, h3, h4⟩ := hbound p hp
      rw [hbbox]
      exact ⟨by simpa using h1, by simpa using h2,
             by simp only; linarith, by simp only; linarith⟩
    · refine ⟨p1, by rw [hv]; exact hp1m, ?_⟩
      rw [hbbox]
      simpa using hp1
    · refine ⟨p2, by rw [hv]; exact hp2m, ?_⟩
      rw [hbbox]
      simpa using hp2
    · refine ⟨p3, by rw [hv]; exact hp3m, ?_⟩
      rw [hbbox]
      simp only
      linarith
    · refine ⟨p4, by rw [hv]; exact hp4m, ?_⟩
      rw [hbbox]
      simp only
      linarith

/-- Witness for C3: the single 20-by-20 square mask produces exactly the
record `mkAnnRecord 5 1 0 …`, and the theorem applies to it. -/
theorem ann_bbox_area_witness :
    ∃ key contours, (key, contours) ∈ oneMask ∧ acceptedPolys contours ≠ [] ∧
      (mkAnnRecord 5 1 0 [[(1, 1), (1, 21), (21, 21), (21, 1), (1, 1)]]).segmentation =
        (acceptedPolys contours).map flattenRing ∧
      (mkAnnRecord 5 1 0 [[(1, 1), (1, 21), (21, 21), (21, 1), (1, 1)]]).area =
        ((acceptedPolys contours).map ringArea).sum ∧
      (∀ p ∈ (acceptedPolys contours).flatten,
        (mkAnnRecord 5 1 0 [[(1, 1), (1, 21), (21, 21), (21, 1), (1, 1)]]).bbox.1 ≤ p.1 ∧
        (mkAnnRecord 5 1 0 [[(1, 1), (1, 21), (21, 21), (21, 1), (1, 1)]]).bbox.2.1 ≤ p.2 ∧
        p.1 ≤ (mkAnnRecord 5 1 0 [[(1, 1), (1, 21), (21, 21), (21, 1), (1, 1)]]).bbox.1 +
          (mkAnnRecord 5 1 0 [[(1, 1), (1, 21), (21, 21), (21, 1), (1, 1)]]).bbox.2.2.1 ∧
        p.2 ≤ (mkAnnRecord 5 1 0 [[(1, 1), (1, 21), (21, 21), (21, 1), (1, 1)]]).bbox.2.1 +
          (mkAnnRecord 5 1 0 [[(1, 1), (1, 21), (21, 21), (21, 1), (1, 1)]]).bbox.2.2.2) ∧
      (∃ p ∈ (acceptedPolys contours).flatten,
        p.1 = (mkAnnRecord 5 1 0 [[(1, 1), (1, 21), (21, 21), (21, 1), (1, 1)]]).bbox.1) ∧
      (∃ p ∈ (acceptedPolys contours).flatten,
        p.2 = (mkAnnRecord 5 1 0 [[(1, 1), (1, 21), (21, 21), (21, 1), (1, 1)]]).bbox.2.1) ∧
      (∃ p ∈ (acceptedPolys contours).flatten,
        p.1 = (mkAnnRecord 5 1 0 [[(1, 1), (1, 21), (21, 21), (21, 1), (1, 1)]]).bbox.1 +
          (mkAnnRecord 5 1 0 [[(1, 1), (1, 21), (21, 21), (21, 1), (1, 1)]]).bbox.2.2.1) ∧
      (∃ p ∈ (acceptedPolys contours).flatten,
        p.2 = (mkAnnRecord 5 1 0 [[(1, 1), (1, 21), (21, 21), (21, 1), (1, 1)]]).bbox.2.1 +
          (mkAnnRecord 5 1 0 [[(1, 1), (1, 21), (21, 21), (21, 1), (1, 1)]]).bbox.2.2.2) :=
  ann_bbox_area 5 oneCat 0 oneMask
    (mkAnnRecord 5 1 0 [[(1, 1), (1, 21), (21, 21), (21, 1), (1, 1)]])
    (by with_unfolding_all decide)

/-- The id-independent fields of an emitted record do not depend on the
id it was assigned. -/
theorem stripId_mkAnnRecord (imageId cid n n' : ℕ) (cs : List (List Point)) :
    stripId (mkAnnRecord imageId cid n cs) = stripId (mkAnnRecord imageId cid n' cs) := rfl

/-- One loop iteration preserves agreement of the outputs' id-independent
fields between two runs whose counters may differ. -/
theorem step_stripId (imageId : ℕ) (cats : List (Color × ℕ))
    (m : Color × List (List Point)) (st st' : AnnState)
    (h : st.anns.map stripId = st'.anns.map stripId) :
    (create_annotations_step imageId cats st m).anns.map stripId =
      (create_annotations_step imageId cats st' m).anns.map stripId := by
  unfold create_annotations_step
  cases halookup : alookup cats m.1 with
  | none => exact h
  | some cid =>
    by_cases hc : cid = 0
    · simp only [if_pos hc]
      exact h
    · simp only [if_neg hc]
      by_cases hp : acceptedPolys m.2 = []
      · simp only [if_pos hp]
        exact h
      · simp only [if_neg hp]
        show (st.anns ++ [mkAnnRecord imageId cid st.nextId m.2]).map stripId =
          (st'.anns ++ [mkAnnRecord imageId cid st'.nextId m.2]).map stripId
        rw [List.map_append, List.map_append, h, List.map_singleton,
            List.map_singleton, stripId_mkAnnRecord imageId cid st.nextId st'.nextId m.2]

/-- Fold version of `step_stripId`. -/
theorem fold_stripId (imageId : ℕ) (cats : List (Color × ℕ))
    (ms : List (Color × List (List Point))) :
    ∀ st st' : AnnState, st.anns.map stripId = st'.anns.map stripId →
      (ms.foldl (create_annotations_step imageId cats) st).anns.map stripId =
        (ms.foldl (create_annotations_step imageId cats) st').anns.map stripId := by
  induction ms with
  | nil => intro st st' h; exact h
  | cons m ms ih =>
    intro st st' h
    exact ih _ _ (step_stripId imageId cats m st st' h)

/-- C6: annotation extraction is deterministic up to the assigned ids —
running it on the same masks with any two counter states yields records
with identical segmentation, bbox, area (and category id, image id,
iscrowd); only the ids can differ. -/
theorem annotations_deterministic (imageId : ℕ) (cats : List (Color × ℕ))
    (masks : List (Color × List (List Point))) (n1 n2 : ℕ) :
    (create_annotations imageId cats n1 masks).anns.map stripId =
      (create_annotations imageId cats n2 masks).anns.map stripId :=
  fold_stripId imageId cats masks ⟨[], n1, []⟩ ⟨[], n2, []⟩ rfl

/-- Witness for C6 at a concrete mask list and two counter states. -/
theorem annotations_deterministic_witness :
    (create_annotations 0 oneCat 0 oneMask).anns.map stripId =
      (create_annotations 0 oneCat 7 oneMask).anns.map stripId :=
  annotations_deterministic 0 oneCat oneMask 0 7

/-- One loop iteration preserves the id invariant: emitted ids are
strictly increasing, bounded below by the starting counter and strictly
below the current counter. -/
theorem step_ids_inv (imageId : ℕ) (cats : List (Color × ℕ)) (startId : ℕ)
    (m : Color × List (List Point)) (st : AnnState)
    (h1 : (st.anns.map (fun a => a.id)).Pairwise (· < ·))
    (h2 : ∀ a ∈ st.anns, startId ≤ a.id ∧ a.id < st.nextId)
    (h3 : startId ≤ st.nextId) :
    ((create_annotations_step imageId cats st m).anns.map (fun a => a.id)).Pairwise (· < ·) ∧
      (∀ a ∈ (create_annotations_step imageId cats st m).anns,
        startId ≤ a.id ∧ a.id < (create_annotations_step imageId cats st m).nextId) ∧
      startId ≤ (create_annotations_step imageId cats st m).nextId := by
  unfold create_annotations_step
  cases halookup : alookup cats m.1 with
  | none => exact ⟨h1, h2, h3⟩
  | some cid =>
    by_cases hc : cid = 0
    · simp only [if_pos hc]
      exact ⟨h1, h2, h3⟩
    · simp only [if_neg hc]
      by_cases hp : acceptedPolys m.2 = []
      · simp only [if_pos hp]
        refine ⟨h1, ?_, ?_⟩
        · intro a ha
          have := h2 a ha
          show startId ≤ a.id ∧ a.id < st.nextId + 1
          omega
        · show startId ≤ st.nextId + 1
          omega
      · simp only [if_neg hp]
        refine ⟨?_, ?_, ?_⟩
        · show ((st.anns ++ [mkAnnRecord imageId cid st.nextId m.2]).map
            (fun a => a.id)).Pairwise (· < ·)
          rw [List.map_append, List.pairwise_append]
          refine ⟨h1, by simp, ?_⟩
          intro x hx y hy
          rw [List.map_singleton, List.mem_singleton] at hy
          subst hy
          obtain ⟨b, hb, rfl⟩ := List.mem_map.mp hx
          show b.id < (mkAnnRecord imageId cid st.nextId m.2).id
          rw [(mkAnnRecord_fields imageId cid st.nextId m.2).2.2.2.1]
          exact (h2 b hb).2
        · intro a ha
          have ha' : a ∈ st.anns ++ [mkAnnRecord imageId cid st.nextId m.2] := ha
          show startId ≤ a.id ∧ a.id < st.nextId + 1
          rcases List.mem_append.mp ha' with h | h
          · have := h2 a h
            omega
          · rw [List.mem_singleton] at h
            subst h
            rw [(mkAnnRecord_fields imageId cid st.nextId m.2).2.2.2.1]
            omega
        · show startId ≤ st.nextId + 1
          omega

/-- Fold version of `step_ids_inv`. -/
theorem fold_ids_inv (imageId : ℕ) (cats : List (Color × ℕ)) (startId : ℕ)
    (ms : List (Color × List (List Point))) :
    ∀ st : AnnState, (st.anns.map (fun a => a.id)).Pairwise (· < ·) →
      (∀ a ∈ st.anns, startId ≤ a.id ∧ a.id < st.nextId) →
      startId ≤ st.nextId →
      ((ms.foldl (create_annotations_step imageId cats) st).anns.map
          (fun a => a.id)).Pairwise (· < ·) ∧
        (∀ a ∈ (ms.foldl (create_annotations_step imageId cats) st).anns,
          startId ≤ a.id ∧
            a.id < (ms.foldl (create_annotations_step imageId cats) st).nextId) ∧
        startId ≤ (ms.foldl (create_annotations_step imageId cats) st).nextId := by
  induction ms with
  | nil => intro st h1 h2 h3; exact ⟨h1, h2, h3⟩
  | cons m ms ih =>
    intro st h1 h2 h3
    obtain ⟨g1, g2, g3⟩ := step_ids_inv imageId cats startId m st h1 h2 h3
    exact ih _ g1 g2 g3

/-- C1 (amended): the ids of the emitted records are assigned in strict
generation order — the emitted id list is strictly increasing, hence has
no duplicates (no id is ever reused), and every id lies between the
starting counter value and the final counter value.  (Contiguity fails in
general: see the gap counterexample.) -/
theorem ann_ids_monotone (imageId : ℕ) (cats : List (Color × ℕ)) (startId : ℕ)
    (masks : List (Color × List (List Point))) :
    (((create_annotations imageId cats startId masks).anns.map
        (fun a => a.id)).Pairwise (· < ·)) ∧
      ((create_annotations imageId cats startId masks).anns.map
        (fun a => a.id)).Nodup ∧
      ∀ a ∈ (create_annotations imageId cats startId masks).anns,
        startId ≤ a.id ∧
          a.id < (create_annotations imageId cats startId masks).nextId := by
  have h := fold_ids_inv imageId cats startId masks ⟨[], startId, []⟩
    (by simp) (by simp) (le_refl _)
  exact ⟨h.1, h.1.imp (fun hlt => Nat.ne_of_lt hlt), h.2.1⟩

/-- Witness for C1's amended statement at a concrete run. -/
theorem ann_ids_monotone_witness :
    (((create_annotations 0 oneCat 0 oneMask).anns.map
        (fun a => a.id)).Pairwise (· < ·)) ∧
      ((create_annotations 0 oneCat 0 oneMask).anns.map (fun a => a.id)).Nodup ∧
      ∀ a ∈ (create_annotations 0 oneCat 0 oneMask).anns,
        0 ≤ a.id ∧ a.id < (create_annotations 0 oneCat 0 oneMask).nextId :=
  ann_ids_monotone 0 oneCat 0 oneMask

/-- Counterexample to C1 as stated: on the `gapMasks` run the emitted ids
are `[0, 2]` — the middle mask's category is known, so it consumes id 1,
but all its polygons are filtered out and no record is emitted; the
emitted id sequence is not contiguous from 0. -/
theorem ann_ids_gap :
    ((create_annotations 0 gapCats 0 gapMasks).anns.map (fun a => a.id)) = [0, 2] ∧
      ((create_annotations 0 gapCats 0 gapMasks).anns.map (fun a => a.id)) ≠
        List.range (create_annotations 0 gapCats 0 gapMasks).anns.length := by
  constructor
  · with_unfolding_all rfl
  · with_unfolding_all decide

/-- One loop iteration sends states agreeing on records and counter to
states agreeing on records and counter (diagnostics may differ). -/
theorem step_same_output (imageId : ℕ) (cats : List (Color × ℕ))
    (m : Color × List (List Point)) (st st' : AnnState)
    (h1 : st.anns = st'.anns) (h2 : st.nextId = st'.nextId) :
    (create_annotations_step imageId cats st m).anns =
        (create_annotations_step imageId cats st' m).anns ∧
      (create_annotations_step imageId cats st m).nextId =
        (create_annotations_step imageId cats st' m).nextId := by
  unfold create_annotations_step
  cases halookup : alookup cats m.1 with
  | none => exact ⟨h1, h2⟩
  | some cid =>
    by_cases hc : cid = 0
    · simp only [if_pos hc]
      exact ⟨h1, h2⟩
    · simp only [if_neg hc]
      by_cases hp : acceptedPolys m.2 = []
      · simp only [if_pos hp]
        refine ⟨h1, ?_⟩
        show st.nextId + 1 = st'.nextId + 1
        omega
      · simp only [if_neg hp]
        constructor
        · show st.anns ++ [mkAnnRecord imageId cid st.nextId m.2] =
            st'.anns ++ [mkAnnRecord imageId cid st'.nextId m.2]
          rw [h1, h2]
        · show st.nextId + 1 = st'.nextId + 1
          omega

/-- Fold version of `step_same_output`. -/
theorem fold_same_output (imageId : ℕ) (cats : List (Color × ℕ))
    (ms : List (Color × List (List Point))) :
    ∀ st st' : AnnState, st.anns = st'.anns → st.nextId = st'.nextId →
      (ms.foldl (create_annotations_step imageId cats) st).anns =
          (ms.foldl (create_annotations_step imageId cats) st').anns ∧
        (ms.foldl (create_annotations_step imageId cats) st).nextId =
          (ms.foldl (create_annotations_step imageId cats) st').nextId := by
  induction ms with
  | nil => intro st st' h1 h2; exact ⟨h1, h2⟩
  | cons m ms ih =>
    intro st st' h1 h2
    obtain ⟨g1, g2⟩ := step_same_output imageId cats m st st' h1 h2
    exact ih _ _ g1 g2

/-- One loop iteration never removes diagnostics. -/
theorem step_diags_mono (imageId : ℕ) (cats : List (Color × ℕ)) (st : AnnState)
    (m : Color × List (List Point)) (k : Color) (hk : k ∈ st.diags) :
    k ∈ (create_annotations_step imageId cats st m).diags := by
  unfold create_annotations_step
  cases halookup : alookup cats m.1 with
  | none => exact List.mem_append_left _ hk
  | some cid =>
    by_cases hc : cid = 0
    · simp only [if_pos hc]
      exact List.mem_append_left _ hk
    · simp only [if_neg hc]
      by_cases hp : acceptedPolys m.2 = []
      · simp only [if_pos hp]
        exact hk
      · simp only [if_neg hp]
        exact hk

/-- Fold version of `step_diags_mono`. -/
theorem fold_diags_mono (imageId : ℕ) (cats : List (Color × ℕ))
    (ms : List (Color × List (List Point))) :
    ∀ (st : AnnState) (k : Color), k ∈ st.diags →
      k ∈ (ms.foldl (create_annotations_step imageId cats) st).diags := by
  induction ms with
  | nil => intro st k hk; exact hk
  | cons m ms ih =>
    intro st k hk
    exact ih _ k (step_diags_mono imageId cats st m k hk)

/-- C8: a mask whose color key has no entry in the registry produces no
record and consumes no id — the run's records and final counter equal
those of the run without that mask (the remaining masks are processed
identically), a diagnostic naming the key is emitted, and the embedding is
total (no exception). -/
theorem unknown_color_skipped (imageId : ℕ) (cats : List (Color × ℕ)) (startId : ℕ)
    (key : Color) (contours : List (List Point))
    (l1 l2 : List (Color × List (List Point)))
    (h : alookup cats key = none) :
    (create_annotations imageId cats startId (l1 ++ (key, contours) :: l2)).anns =
        (create_annotations imageId cats startId (l1 ++ l2)).anns ∧
      (create_annotations imageId cats startId (l1 ++ (key, contours) :: l2)).nextId =
        (create_annotations imageId cats startId (l1 ++ l2)).nextId ∧
      key ∈ (create_annotations imageId cats startId (l1 ++ (key, contours) :: l2)).diags := by
  unfold create_annotations
  rw [List.foldl_append, List.foldl_append, List.foldl_cons]
  have h' : alookup cats ((key, contours) : Color × List (List Point)).1 = none := h
  have hstep : ∀ st : AnnState,
      create_annotations_step imageId cats st (key, contours) =
        { st with diags := st.diags ++ [key] } := by
    intro st
    unfold create_annotations_step
    rw [h']
  rw [hstep]
  have hfold := fold_same_output imageId cats l2
    { l1.foldl (create_annotations_step imageId cats) ⟨[], startId, []⟩ with
      diags := (l1.foldl (create_annotations_step imageId cats)
        ⟨[], startId, []⟩).diags ++ [key] }
    (l1.foldl (create_annotations_step imageId cats) ⟨[], startId, []⟩) rfl rfl
  refine ⟨hfold.1, hfold.2, ?_⟩
  exact fold_diags_mono imageId cats l2 _ key
    (List.mem_append_right _ (List.mem_singleton_self key))

/-! ### Mask isolation (C5) -/

/-- `alookup` misses exactly the keys absent from the list. -/
theorem alookup_eq_none_iff {β : Type} (l : List (Color × β)) (c : Color) :
    alookup l c = none ↔ c ∉ l.map Prod.fst := by
  induction l with
  | nil => simp [alookup]
  | cons e l ih =>
    simp only [List.map_cons, List.mem_cons, alookup]
    by_cases hk : e.1 = c
    · simp [hk]
    · have hk' : ¬ c = e.1 := fun hh => hk hh.symm
      simp [hk, hk', ih, not_or]

/-- A hit in the left part of an appended association list wins. -/
theorem alookup_append_left {β : Type} (l1 l2 : List (Color × β)) (c : Color) (v : β)
    (h : alookup l1 c = some v) : alookup (l1 ++ l2) c = some v := by
  induction l1 with
  | nil => cases h
  | cons e l ih =>
    simp only [List.cons_append, alookup] at h ⊢
    by_cases hk : e.1 = c
    · rw [if_pos hk] at h ⊢
      exact h
    · rw [if_neg hk] at h ⊢
      exact ih h

/-- A miss in the left part of an appended association list defers to the
right part. -/
theorem alookup_append_right {β : Type} (l1 l2 : List (Color × β)) (c : Color)
    (h : alookup l1 c = none) : alookup (l1 ++ l2) c = alookup l2 c := by
  induction l1 with
  | nil => rfl
  | cons e l ih =>
    simp only [List.cons_append, alookup] at h ⊢
    by_cases hk : e.1 = c
    · rw [if_pos hk] at h
      cases h
    · rw [if_neg hk] at h ⊢
      exact ih h

/-- Looking up after the `putpixel` update of every entry of one key. -/
theorem alookup_map_insert (pt : ℕ × ℕ) (l : List (Color × IsoMask))
    (c c' : Color) :
    alookup (l.map (fun e => if e.1 = c then
        (e.1, ⟨e.2.width, e.2.height, insert pt e.2.pix⟩) else e)) c' =
      if c' = c then
        (alookup l c').map (fun m => ⟨m.width, m.height, insert pt m.pix⟩)
      else alookup l c' := by
  induction l with
  | nil => by_cases h : c' = c <;> simp [alookup, h]
  | cons e l ih =>
    simp only [List.map_cons, alookup]
    by_cases h3 : e.1 = c <;> by_cases h1 : e.1 = c'
    · have h2 : c' = c := h1.symm.trans h3
      simp_all [alookup]
    · have h2 : ¬ c' = c := fun hh => h1 (h3.trans hh.symm)
      simp_all [alookup]
    · have h2 : ¬ c' = c := fun hh => h3 (h1.trans hh)
      simp_all [alookup]
    · by_cases h2 : c' = c <;> simp_all [alookup]

/-- The `putpixel` update of one key preserves the key list. -/
theorem map_update_keys (pt : ℕ × ℕ) (c : Color)
    (l : List (Color × IsoMask)) :
    (l.map (fun e => if e.1 = c then
        (e.1, ⟨e.2.width, e.2.height, insert pt e.2.pix⟩) else e)).map Prod.fst =
      l.map Prod.fst := by
  induction l with
  | nil => rfl
  | cons e l ih =>
    by_cases h : e.1 = c <;> simp [h, ih]

/-- Membership in the pixel traversal is exactly being a coordinate of the
`w × h` image. -/
theorem mem_pixelList (w h : ℕ) (p : ℕ × ℕ) :
    p ∈ pixelList w h ↔ p.1 < w ∧ p.2 < h := by
  unfold pixelList
  rw [List.mem_flatMap]
  constructor
  · rintro ⟨x, hx, hp⟩
    rw [List.mem_map] at hp
    obtain ⟨y, hy, rfl⟩ := hp
    exact ⟨List.mem_range.mp hx, List.mem_range.mp hy⟩
  · rintro ⟨h1, h2⟩
    refine ⟨p.1, List.mem_range.mpr h1, ?_⟩
    rw [List.mem_map]
    exact ⟨p.2, List.mem_range.mpr h2, rfl⟩

/-- One pixel step of `_isolate_masks` preserves the dictionary invariant,
extending the set of processed pixels by the current one. -/
theorem isoStep_inv (img : ℕ → ℕ → Color) (w h : ℕ) (P : List (ℕ × ℕ))
    (st : List (Color × IsoMask)) (p : ℕ × ℕ)
    (hnd : (st.map Prod.fst).Nodup)
    (hsome : ∀ c, (alookup st c).isSome ↔
      (c ≠ (0, 0, 0) ∧ ∃ q ∈ P, img q.1 q.2 = c))
    (hchar : ∀ c m, alookup st c = some m → m.width = w + 2 ∧ m.height = h + 2 ∧
      ∀ q, q ∈ m.pix ↔ ∃ q' ∈ P, img q'.1 q'.2 = c ∧ q = (q'.1 + 1, q'.2 + 1)) :
    (((isoStep img w h st p).map Prod.fst).Nodup) ∧
      (∀ c, (alookup (isoStep img w h st p) c).isSome ↔
        (c ≠ (0, 0, 0) ∧ ∃ q ∈ P ++ [p], img q.1 q.2 = c)) ∧
      (∀ c m, alookup (isoStep img w h st p) c = some m →
        m.width = w + 2 ∧ m.height = h + 2 ∧
        ∀ q, q ∈ m.pix ↔ ∃ q' ∈ P ++ [p], img q'.1 q'.2 = c ∧ q = (q'.1 + 1, q'.2 + 1)) := by
  by_cases hb : img p.1 p.2 = (0, 0, 0)
  · have hstep : isoStep img w h st p = st := by
      unfold isoStep
      rw [if_pos hb]
    rw [hstep]
    refine ⟨hnd, ?_, ?_⟩
    · intro c
      rw [hsome c]
      constructor
      · rintro ⟨hc, q, hq, hqc⟩
        exact ⟨hc, q, List.mem_append_left _ hq, hqc⟩
      · rintro ⟨hc, q, hq, hqc⟩
        rcases List.mem_append.mp hq with h1 | h1
        · exact ⟨hc, q, h1, hqc⟩
        · rw [List.mem_singleton] at h1
          subst h1
          exact absurd (hqc.symm.trans hb) hc
    · intro c m hm
      obtain ⟨h1, h2, h3⟩ := hchar c m hm
      have hcne : c ≠ (0, 0, 0) :=
        ((hsome c).mp (by rw [hm]; rfl)).1
      refine ⟨h1, h2, ?_⟩
      intro q
      rw [h3 q]
      constructor
      · rintro ⟨q', hq', hqc, hq⟩
        exact ⟨q', List.mem_append_left _ hq', hqc, hq⟩
      · rintro ⟨q', hq', hqc, hq⟩
        rcases List.mem_append.mp hq' with h4 | h4
        · exact ⟨q', h4, hqc, hq⟩
        · rw [List.mem_singleton] at h4
          subst h4
          exact absurd (hqc.symm.trans hb) hcne
  · have hstep : isoStep img w h st p =
        (if (alookup st (img p.1 p.2)).isSome then st
         else st ++ [(img p.1 p.2, ⟨w + 2, h + 2, ∅⟩)]).map
          (fun e => if e.1 = img p.1 p.2 then
            (e.1, ⟨e.2.width, e.2.height, insert (p.1 + 1, p.2 + 1) e.2.pix⟩)
          else e) := by
      unfold isoStep
      rw [if_neg hb]
    have hnd' : (((if (alookup st (img p.1 p.2)).isSome then st
        else st ++ [(img p.1 p.2, ⟨w + 2, h + 2, ∅⟩)])).map Prod.fst).Nodup := by
      by_cases hex : (alookup st (img p.1 p.2)).isSome
      · rw [if_pos hex]
        exact hnd
      · rw [if_neg hex]
        rw [List.map_append]
        refine List.nodup_append.mpr ⟨hnd, List.nodup_singleton _, ?_⟩
        intro a ha ha2
        simp only [List.map_cons, List.map_nil, List.mem_singleton] at ha2
        subst ha2
        have hnone : alookup st (img p.1 p.2) = none :=
          Option.not_isSome_iff_eq_none.mp hex
        exact (alookup_eq_none_iff st (img p.1 p.2)).mp hnone ha
    have hsome'c0 : ∃ m0, alookup (if (alookup st (img p.1 p.2)).isSome then st
        else st ++ [(img p.1 p.2, ⟨w + 2, h + 2, ∅⟩)]) (img p.1 p.2) = some m0 ∧
        m0.width = w + 2 ∧ m0.height = h + 2 ∧
        (∀ q, q ∈ m0.pix ↔ ∃ q' ∈ P, img q'.1 q'.2 = img p.1 p.2 ∧
          q = (q'.1 + 1, q'.2 + 1)) := by
      by_cases hex : (alookup st (img p.1 p.2)).isSome
      · rw [if_pos hex]
        obtain ⟨m0, hm0⟩ := Option.isSome_iff_exists.mp hex
        obtain ⟨h1, h2, h3⟩ := hchar _ m0 hm0
        exact ⟨m0, hm0, h1, h2, h3⟩
      · rw [if_neg hex]
        have hnone : alookup st (img p.1 p.2) = none :=
          Option.not_isSome_iff_eq_none.mp hex
        rw [alookup_append_right st _ _ hnone]
        refine ⟨⟨w + 2, h + 2, ∅⟩, by simp [alookup], rfl, rfl, ?_⟩
        intro q
        simp only [Finset.not_mem_empty, false_iff]
        rintro ⟨q', hq', hqc, -⟩
        have hns : ¬ (alookup st (img p.1 p.2)).isSome := hex
        rw [hsome (img p.1 p.2)] at hns
        push_neg at hns
        exact (hns hb q' hq') hqc
    have hlook' : ∀ c, c ≠ img p.1 p.2 →
        alookup (if (alookup st (img p.1 p.2)).isSome then st
          else st ++ [(img p.1 p.2, ⟨w + 2, h + 2, ∅⟩)]) c = alookup st c := by
      intro c hcne
      by_cases hex : (alookup st (img p.1 p.2)).isSome
      · rw [if_pos hex]
      · rw [if_neg hex]
        cases hlc : alookup st c with
        | some v => exact alookup_append_left st _ c v hlc
        | none =>
          rw [alookup_append_right st _ c hlc]
          have hne2 : ¬ (img p.1 p.2) = c := fun hh => hcne hh.symm
          simp [alookup, hne2]
    rw [hstep]
    refine ⟨?_, ?_, ?_⟩
    · rw [map_update_keys (p.1 + 1, p.2 + 1) (img p.1 p.2)]
      exact hnd'
    · intro c
      rw [alookup_map_insert (p.1 + 1, p.2 + 1) _ (img p.1 p.2) c]
      by_cases hcc : c = img p.1 p.2
      · rw [if_pos hcc]
        subst hcc
        obtain ⟨m0, hm0, -, -, -⟩ := hsome'c0
        rw [hm0]
        simp only [Option.map_some', Option.isSome_some, true_iff]
        exact ⟨hb, p, List.mem_append_right _ (List.mem_singleton_self p), rfl⟩
      · rw [if_neg hcc, hlook' c hcc, hsome c]
        constructor
        · rintro ⟨hcb, q, hq, hqc⟩
          exact ⟨hcb, q, List.mem_append_left _ hq, hqc⟩
        · rintro ⟨hcb, q, hq, hqc⟩
          rcases List.mem_append.mp hq with h4 | h4
          · exact ⟨hcb, q, h4, hqc⟩
          · rw [List.mem_singleton] at h4
            subst h4
            exact absurd hqc.symm hcc
    · intro c m hm
      rw [alookup_map_insert (p.1 + 1, p.2 + 1) _ (img p.1 p.2) c] at hm
      by_cases hcc : c = img p.1 p.2
      · rw [if_pos hcc] at hm
        subst hcc
        obtain ⟨m0, hm0, hw0, hh0, hp0⟩ := hsome'c0
        rw [hm0] at hm
        simp only [Option.map_some'] at hm
        obtain rfl := (Option.some.inj hm).symm
        refine ⟨hw0, hh0, ?_⟩
        intro q
        simp only [Finset.mem_insert, hp0 q]
        constructor
        · rintro (rfl | ⟨q', hq', hqc, hq⟩)
          · exact ⟨p, List.mem_append_right _ (List.mem_singleton_self p), rfl, rfl⟩
          · exact ⟨q', List.mem_append_left _ hq', hqc, hq⟩
        · rintro ⟨q', hq', hqc, hq⟩
          rcases List.mem_append.mp hq' with h4 | h4
          · exact Or.inr ⟨q', h4, hqc, hq⟩
          · rw [List.mem_singleton] at h4
            subst h4
            exact Or.inl hq
      · rw [if_neg hcc, hlook' c hcc] at hm
        obtain ⟨h1, h2, h3⟩ := hchar c m hm
        refine ⟨h1, h2, ?_⟩
        intro q
        rw [h3 q]
        constructor
        · rintro ⟨q', hq', hqc, hq⟩
          exact ⟨q', List.mem_append_left _ hq', hqc, hq⟩
        · rintro ⟨q', hq', hqc, hq⟩
          rcases List.mem_append.mp hq' with h4 | h4
          · exact ⟨q', h4, hqc, hq⟩
          · rw [List.mem_singleton] at h4
            subst h4
            exact absurd hqc.symm hcc

/-- Fold version of `isoStep_inv` over any pixel list. -/
theorem isoFold_inv (img : ℕ → ℕ → Color) (w h : ℕ) (ps : List (ℕ × ℕ)) :
    ∀ (P : List (ℕ × ℕ)) (st : List (Color × IsoMask)),
      (st.map Prod.fst).Nodup →
      (∀ c, (alookup st c).isSome ↔
        (c ≠ (0, 0, 0) ∧ ∃ q ∈ P, img q.1 q.2 = c)) →
      (∀ c m, alookup st c = some m → m.width = w + 2 ∧ m.height = h + 2 ∧
        ∀ q, q ∈ m.pix ↔ ∃ q' ∈ P, img q'.1 q'.2 = c ∧ q = (q'.1 + 1, q'.2 + 1)) →
      (((ps.foldl (isoStep img w h) st).map Prod.fst).Nodup ∧
        (∀ c, (alookup (ps.foldl (isoStep img w h) st) c).isSome ↔
          (c ≠ (0, 0, 0) ∧ ∃ q ∈ P ++ ps, img q.1 q.2 = c)) ∧
        (∀ c m, alookup (ps.foldl (isoStep img w h) st) c = some m →
          m.width = w + 2 ∧ m.height = h + 2 ∧
          ∀ q, q ∈ m.pix ↔ ∃ q' ∈ P ++ ps, img q'.1 q'.2 = c ∧
            q = (q'.1 + 1, q'.2 + 1))) := by
  induction ps with
  | nil =>
    intro P st h1 h2 h3
    rw [List.append_nil]
    exact ⟨h1, h2, h3⟩
  | cons p ps ih =>
    intro P st h1 h2 h3
    obtain ⟨g1, g2, g3⟩ := isoStep_inv img w h P st p h1 h2 h3
    have := ih (P ++ [p]) (isoStep img w h st p) g1 g2 g3
    rw [List.append_assoc] at this
    simpa using this

/-- C5: the mask decomposition builds exactly one entry per distinct
non-black pixel color (the key list has no duplicates, and a color has an
entry iff it is non-black and occurs in the image); each entry is a
`(w+2) × (h+2)` canvas in which the padded pixel `(x+1, y+1)` is set iff
the mask pixel `(x, y)` carries that color; and the traversed pixels are
exactly the coordinates of the `w × h` image. -/
theorem isolate_masks_spec (img : ℕ → ℕ → Color) (w h : ℕ) :
    ((isolate_masks img w h).map Prod.fst).Nodup ∧
      (∀ p : ℕ × ℕ, p ∈ pixelList w h ↔ p.1 < w ∧ p.2 < h) ∧
      (∀ c, (alookup (isolate_masks img w h) c).isSome ↔
        (c ≠ (0, 0, 0) ∧ ∃ p ∈ pixelList w h, img p.1 p.2 = c)) ∧
      (∀ c m, alookup (isolate_masks img w h) c = some m →
        m.width = w + 2 ∧ m.height = h + 2 ∧
        ∀ q, q ∈ m.pix ↔ ∃ p ∈ pixelList w h, img p.1 p.2 = c ∧
          q = (p.1 + 1, p.2 + 1)) := by
  have hbase := isoFold_inv img w h (pixelList w h) [] []
    (by simp) (by simp [alookup]) (by intro c m hm; cases hm)
  rw [List.nil_append] at hbase
  exact ⟨hbase.1, fun p => mem_pixelList w h p, hbase.2.1, hbase.2.2⟩

/-- Witness for C5 at a concrete 2-by-2 image with one red pixel. -/
theorem isolate_masks_spec_witness :
    ((isolate_masks wImg 2 2).map Prod.fst).Nodup ∧
      (∀ p : ℕ × ℕ, p ∈ pixelList 2 2 ↔ p.1 < 2 ∧ p.2 < 2) ∧
      (∀ c, (alookup (isolate_masks wImg 2 2) c).isSome ↔
        (c ≠ (0, 0, 0) ∧ ∃ p ∈ pixelList 2 2, wImg p.1 p.2 = c)) ∧
      (∀ c m, alookup (isolate_masks wImg 2 2) c = some m →
        m.width = 2 + 2 ∧ m.height = 2 + 2 ∧
        ∀ q, q ∈ m.pix ↔ ∃ p ∈ pixelList 2 2, wImg p.1 p.2 = c ∧
          q = (p.1 + 1, p.2 + 1)) :=
  isolate_masks_spec wImg 2 2

/-- Witness for C8: a green mask with no registry entry, between no masks
and the red mask, is skipped. -/
theorem unknown_color_skipped_witness :
    (create_annotations 0 oneCat 0 ([] ++ ((0, 255, 0), [[(1, 1)]]) :: oneMask)).anns =
        (create_annotations 0 oneCat 0 ([] ++ oneMask)).anns ∧
      (create_annotations 0 oneCat 0 ([] ++ ((0, 255, 0), [[(1, 1)]]) :: oneMask)).nextId =
        (create_annotations 0 oneCat 0 ([] ++ oneMask)).nextId ∧
      (0, 255, 0) ∈
        (create_annotations 0 oneCat 0 ([] ++ ((0, 255, 0), [[(1, 1)]]) :: oneMask)).diags :=
  unknown_color_skipped 0 oneCat 0 (0, 255, 0) [[(1, 1)]] [] oneMask
    (by with_unfolding_all decide)

end SynthData
